import Mathlib

/-!
# Cable inspection: diameter measurement and defect classification

A shallow embedding of `src/src/mainwindow.cpp` (`MainWindow::measure_diameter`,
`MainWindow::classify_defect`, `MainWindow::find_defect` and the two save
actions) together with the properties of the specification that concern them.

Conventions of the embedding.

* A single-channel `cv::Mat` is a pair of dimensions and a pixel function.
* Results of the computer-vision library that the code only consumes (the
  blurred gray raster, the contour lists, the warped gray patch, the fitted
  ellipse) are inputs of the embedded functions.
* `float` and `double` values are rationals; every floating-point operation
  the code performs itself is followed by the rounding of its format
  (`fpRound`, round to nearest, ties to even).
* An `int` and an `int32` entry are integers kept in 32 bits: the column sums
  of the histogram wrap modulo `2^32`, the conversion of a `double` to `int`
  tests the range.
* A read outside a buffer and an error raised by the library stop the
  embedded loop and are recorded in its result.
-/

namespace Taymer

/-! ## Rasters -/

/-- A single-channel raster (`cv::Mat` of type `CV_8UC1`): `px r c` is the
pixel of row `r` and column `c`. -/
structure Mat where
  rows : Nat
  cols : Nat
  px : Nat → Nat → Nat

/-- The test `cv::Mat::empty()`: no pixel at all. -/
def Mat.empty (m : Mat) : Bool := m.rows == 0 || m.cols == 0

/-- The header `m.row(s)`: the one-row raster holding row `s` of `m`. -/
def Mat.row (m : Mat) (s : Nat) : Mat :=
  { rows := 1, cols := m.cols, px := fun _ c => m.px s c }

/-- The call `cv::threshold(src, dst, thresh, maxval, cv::THRESH_BINARY)`:
a pixel above `thresh` becomes `maxval`, every other pixel becomes `0`. -/
def threshold (src : Mat) (thresh maxval : Nat) : Mat :=
  { rows := src.rows, cols := src.cols,
    px := fun r c => if src.px r c > thresh then maxval else 0 }

/-- An integer point `cv::Point`, stored as the two `int32` values `x`, `y`. -/
structure Point where
  x : Int
  y : Int
deriving DecidableEq, Repr

/-- The call `cv::findNonZero(m, idx)`: the positions `(x, y)` of the nonzero
pixels of `m`, in row-major scan order. -/
def findNonZero (m : Mat) : List Point :=
  (List.range m.rows).flatMap fun (r : Nat) =>
    ((List.range m.cols).filter fun (c : Nat) => m.px r c != 0).map fun (c : Nat) =>
      { x := Int.ofNat c, y := Int.ofNat r }

/-- The `int32` buffer of the `N x 1` two-channel raster that `findNonZero`
fills: `x0, y0, x1, y1, ...`. -/
def pointBuffer (pts : List Point) : List Int :=
  pts.flatMap fun p => [p.x, p.y]

/-- The read `nonZero.at<std::int32_t>(i, 0)` on the raster of `pts`: the first
`int32` of row `i` (a row is one point, two `int32` long). The read is `none`
when row `i` does not exist. -/
def atInt32 (pts : List Point) (i : Int) : Option Int :=
  if 0 ≤ i ∧ i < (pts.length : Int) then (pointBuffer pts).get? (2 * i.toNat) else none

/-! ## `MainWindow::measure_diameter` -/

/-- One cable measurement: the sampled row `y`, the left and right columns
`cableLeft`, `cableRight` and the reported `diamaeter`. -/
structure Measurement where
  y : Int
  xL : Int
  xR : Int
  diamaeter : Int
deriving DecidableEq, Repr

/-- The vector `splits` of `measure_diameter`:
`split = ysize/4`, `splits = {split, split*2, split*3}`. -/
def splits (ysize : Nat) : List Nat :=
  let split := ysize / 4
  [split, split * 2, split * 3]

/-- The body of the loop of `measure_diameter` for the split `s`: take the row,
list its nonzero positions, read the first and the last `x`, subtract.
The result is `none` when a read leaves its buffer. -/
def measureRow (thresh : Mat) (s : Nat) : Option Measurement :=
  if thresh.rows ≤ s then none
  else
    let line := thresh.row s
    let nonZero := findNonZero line
    match atInt32 nonZero 0, atInt32 nonZero ((nonZero.length : Int) - 1) with
    | some cableLeft, some cableRight =>
        some { y := Int.ofNat s, xL := cableLeft, xR := cableRight,
               diamaeter := cableRight - cableLeft }
    | _, _ => none

/-- What a run of `measure_diameter` produced: the measurements drawn so far
and whether the run stopped on a read outside a buffer. -/
structure MeasureRun where
  measurements : List Measurement
  fault : Bool
deriving DecidableEq, Repr

/-- The loop `for (int s : splits)` of `measure_diameter`. -/
def measureLoop (thresh : Mat) : List Nat → MeasureRun
  | [] => { measurements := [], fault := false }
  | s :: rest =>
    match measureRow thresh s with
    | none => { measurements := [], fault := true }
    | some m =>
      let r := measureLoop thresh rest
      { measurements := m :: r.measurements, fault := r.fault }

/-- The function `MainWindow::measure_diameter` on the blurred gray raster
`blur` of the loaded image (same dimensions as the image): nothing is measured
for an empty image; otherwise the raster is thresholded at `60` and the three
split rows are measured. -/
def measure_diameter (blur : Mat) : MeasureRun :=
  if blur.empty then { measurements := [], fault := false }
  else
    let ysize := blur.rows
    let thresh := threshold blur 60 255
    measureLoop thresh (splits ysize)

/-- The columns of row `s` of `m` that hold a nonzero pixel, ascending. -/
def nonZeroCols (m : Mat) (s : Nat) : List Nat :=
  (List.range m.cols).filter fun c => m.px s c != 0

/-- The point that `findNonZero` reports for column `c` of a one-row raster. -/
def colPoint (c : Nat) : Point := { x := Int.ofNat c, y := 0 }

/-! ## Floating point -/

/-- Rounding of a rational to the nearest integer, a tie going to the even
neighbour. -/
def roundHalfEven (x : ℚ) : ℤ :=
  let f := ⌊x⌋
  if x - f < 1 / 2 then f
  else if 1 / 2 < x - f then f + 1
  else if f % 2 = 0 then f else f + 1

/-- Rounding to the nearest value of a binary floating-point format with `prec`
significand bits and least normal exponent `emin` (round to nearest, ties to
even, gradual underflow). Overflow to infinity is not represented; the values
rounded here are the quotients `w/h ≤ 1` and `S/w` of the classifier. -/
def fpRound (prec : ℕ) (emin : ℤ) (x : ℚ) : ℚ :=
  let e := max (Int.log 2 |x|) emin
  let ulp := (2 : ℚ) ^ (e - ((prec : ℤ) - 1))
  (roundHalfEven (x / ulp) : ℚ) * ulp

/-- The exponent of the last place that `fpRound` uses for `x`. -/
def ulpExp (prec : ℕ) (emin : ℤ) (x : ℚ) : ℤ := max (Int.log 2 |x|) emin - ((prec : ℤ) - 1)

/-- Rounding to `float` (IEEE 754 binary32). -/
def f32 (x : ℚ) : ℚ := fpRound 24 (-126) x

/-- Rounding to `double` (IEEE 754 binary64). -/
def f64 (x : ℚ) : ℚ := fpRound 53 (-1022) x

/-- Conversion of a `double` to the 32-bit `int`: the fraction is dropped. When
the result does not fit in 32 bits the conversion is undefined in C++; the value
taken here is `INT_MIN`, what the conversion instruction of x86-64 delivers. -/
def truncToInt (x : ℚ) : ℤ :=
  let t := if 0 ≤ x then ⌊x⌋ else ⌈x⌉
  if -2147483648 ≤ t ∧ t ≤ 2147483647 then t else -2147483648

/-- The value of a 32-bit signed accumulator that holds `z`: `z` modulo `2^32`,
taken in `[-2^31, 2^31)`. -/
def wrapInt32 (z : ℤ) : ℤ := (z + 2147483648) % 4294967296 - 2147483648

/-! ## `MainWindow::classify_defect` -/

/-- The box `cv::RotatedRect`: centre, size and angle, all `float`. -/
structure RotatedRect where
  centerX : ℚ
  centerY : ℚ
  width : ℚ
  height : ℚ
  angle : ℚ

/-- The sum of the pixels of column `c` of `m`. -/
def columnSum (m : Mat) (c : Nat) : Nat :=
  ((List.range m.rows).map fun (r : Nat) => m.px r c).sum

/-- The sum of all pixels of `m`, column by column. -/
def pixelSum (m : Mat) : Nat :=
  ((List.range m.cols).map fun (c : Nat) => columnSum m c).sum

/-- The call `cv::reduce(warpedGray, hist, 0, 0, CV_32S)`: one `int32` entry per
column of the patch, the sum of the pixels of that column accumulated in 32
bits. -/
def reduceColumns (warpedGray : Mat) : List ℤ :=
  (List.range warpedGray.cols).map fun (c : Nat) =>
    wrapInt32 (Int.ofNat (columnSum warpedGray c))

/-- The value `cv::sum(hist)[0]`: the sum of the entries of `hist`, a `double`. -/
def sumHist (hist : List ℤ) : ℚ := f64 ((hist.sum : ℤ) : ℚ)

/-- The local `avgIntensity` of `classify_defect`:
`int avgIntensity = cv::sum(hist)[0]/w`, a `double` divided by the `float` width
of the box, in `double`, then converted to `int`. -/
def avgIntensity (warpedGray : Mat) (w : ℚ) : ℤ :=
  let hist := reduceColumns warpedGray
  truncToInt (f64 (sumHist hist / w))

/-- The specification's `avgIntensity = S / w` (integer division): the sum `S` of
all pixels of the patch divided, as integers, by the whole number of columns
that the width `w` stands for. -/
def avgIntensity_spec (warpedGray : Mat) (w : ℚ) : ℤ :=
  (Int.ofNat (pixelSum warpedGray)) / ⌊w⌋

/-- The constant `0.85` of the comparison `ratio <= 0.85`: a `double` literal. -/
def aspectCut : ℚ := f64 (85 / 100)

/-- The decision of `classify_defect` once `avgIntensity` is known; `w`, `h` are
the size of the box and `ratio0` is the indeterminate first content of the
local `ratio`. The `float` `ratio` is compared as a `double` (the conversion is
exact). -/
def classify_label (avgIntensity : ℤ) (w h : ℚ) (ratio0 : ℚ) : ℤ :=
  if avgIntensity > 18000 then 2
  else
    let ratio1 := if h > w then f32 (w / h) else ratio0
    let ratio2 := if w ≥ h then f32 (h / w) else ratio1
    if ratio2 ≤ aspectCut then 1 else 0

/-- The function `MainWindow::classify_defect` on the box `rectangle` and on
`warpedGray`, the gray patch that the library warps out of the image for it. -/
def classify_defect (rectangle : RotatedRect) (warpedGray : Mat) (ratio0 : ℚ) : ℤ :=
  classify_label (avgIntensity warpedGray rectangle.width) rectangle.width rectangle.height
    ratio0

/-! ## `MainWindow::find_defect`, second pass -/

/-- The library call `cv::fitEllipse`: an error (`none`) on fewer than 5 points,
for which no ellipse is determined; otherwise the fitted box, given by `fit`. -/
def fitEllipse (fit : List Point → RotatedRect) (contour : List Point) : Option RotatedRect :=
  if contour.length < 5 then none else some (fit contour)

/-- How the loop over `groupContours` ended: it ran through, it indexed a helper
vector past its end at index `i`, or `fitEllipse` raised its error at index `i`. -/
inductive Pass2Stop where
  | finished
  | outOfRange (i : Nat)
  | fitEllipseError (i : Nat)
deriving DecidableEq, Repr

/-- What the second pass produced: the labelled regions drawn so far and how the
loop ended. -/
structure DefectRun where
  regions : List (RotatedRect × ℤ)
  stop : Pass2Stop

/-- The loop `for (int i=0; i < groupContours.size(); i++)` of `find_defect`
from index `i` on, `rest` being the contours not yet visited. The helper vectors
`minEllipse`, `contourPoly`, `boundingRectangles` have `contours.size()`
entries, here `helperLen`; the iteration first indexes `contourPoly[i]`, then
fits the ellipse, then classifies. `warp` gives the gray patch of a box. -/
def pass2Loop (helperLen : Nat) (fit : List Point → RotatedRect) (warp : RotatedRect → Mat)
    (ratio0 : ℚ) : Nat → List (List Point) → DefectRun
  | _, [] => { regions := [], stop := Pass2Stop.finished }
  | i, contour :: rest =>
    if helperLen ≤ i then { regions := [], stop := Pass2Stop.outOfRange i }
    else
      match fitEllipse fit contour with
      | none => { regions := [], stop := Pass2Stop.fitEllipseError i }
      | some box =>
        let defect := classify_defect box (warp box) ratio0
        let r := pass2Loop helperLen fit warp ratio0 (i + 1) rest
        { regions := (box, defect) :: r.regions, stop := r.stop }

/-- The second pass of `MainWindow::find_defect` on the contours of the first
pass (`contours`) and of the second pass (`groupContours`). -/
def find_defect (imgEmpty : Bool) (contours groupContours : List (List Point))
    (fit : List Point → RotatedRect) (warp : RotatedRect → Mat) (ratio0 : ℚ) : DefectRun :=
  if imgEmpty then { regions := [], stop := Pass2Stop.finished }
  else pass2Loop contours.length fit warp ratio0 0 groupContours

/-! ## The save actions -/

/-- The members of `MainWindow` that the save actions use. -/
structure MainWindow where
  img : Mat
  measure_output : Mat
  defect_outut : Mat

/-- The slot `on_measure_save_button_clicked`: the window afterwards and the
raster handed to `cv::imwrite`. `run_measure` is the effect of
`measure_diameter` on the window. -/
def on_measure_save_button_clicked (run_measure : MainWindow → MainWindow)
    (window : MainWindow) : MainWindow × Mat :=
  let window1 := if window.measure_output.empty then run_measure window else window
  (window1, window1.measure_output)

/-- The slot `on_defect_save_button_clicked`: the window afterwards and the
raster handed to `cv::imwrite`. `run_defect` is the effect of `find_defect` on
the window. -/
def on_defect_save_button_clicked (run_defect : MainWindow → MainWindow)
    (window : MainWindow) : MainWindow × Mat :=
  let window1 := if window.defect_outut.empty then run_defect window else window
  (window1, window1.measure_output)

/-! ## Sample inputs -/

/-- A blurred raster of 4 rows and 5 columns, bright in columns 1 and 3. -/
def twoStripes : Mat := { rows := 4, cols := 5, px := fun _ c => if c = 1 ∨ c = 3 then 200 else 0 }

/-- A blurred raster of 4 rows and 5 columns, bright in column 1 only. -/
def oneStripe : Mat := { rows := 4, cols := 5, px := fun _ c => if c = 1 then 200 else 0 }

/-- A blurred raster of 4 rows and 4 columns, black everywhere. -/
def blackRaster : Mat := { rows := 4, cols := 4, px := fun _ _ => 0 }

/-- A blurred raster of 4 rows and 4 columns, black in row 1 and white elsewhere. -/
def blackRowOne : Mat := { rows := 4, cols := 4, px := fun r _ => if r = 1 then 0 else 255 }

/-- The blurred gray raster (kernel `1/4, 1/2, 1/4`) of the image of 8 rows and 4
columns that is black in rows 0 to 3 and white in rows 4 to 7: rows 0 to 2 stay
0, row 3 becomes 64, row 4 becomes 191, rows 5 to 7 stay 255. -/
def darkTop : Mat :=
  { rows := 8, cols := 4,
    px := fun r _ => if r < 3 then 0 else if r = 3 then 64 else if r = 4 then 191 else 255 }

/-- A blurred raster of 6 rows and 3 columns, white everywhere. -/
def whiteSixRows : Mat := { rows := 6, cols := 3, px := fun _ _ => 255 }

/-- A gray patch of 1 row and 2 columns with every pixel 3. -/
def smallPatch : Mat := { rows := 1, cols := 2, px := fun _ _ => 3 }

/-- A gray patch of 71 rows and 2 columns with every pixel 255. -/
def brightPatch : Mat := { rows := 71, cols := 2, px := fun _ _ => 255 }

/-- A contour of 4 points, the corners of a block of 2 by 2 pixels. -/
def blockContour : List Point :=
  [{ x := 0, y := 0 }, { x := 0, y := 1 }, { x := 1, y := 1 }, { x := 1, y := 0 }]

/-- A contour of 8 points, the border of a block of 3 by 3 pixels. -/
def ringContour : List Point :=
  [{ x := 4, y := 4 }, { x := 4, y := 5 }, { x := 4, y := 6 }, { x := 5, y := 6 },
   { x := 6, y := 6 }, { x := 6, y := 5 }, { x := 6, y := 4 }, { x := 5, y := 4 }]

/-- A fit that answers every contour with the same box of 10 by 10. -/
def constFit : List Point → RotatedRect :=
  fun _ => { centerX := 5, centerY := 5, width := 10, height := 10, angle := 0 }

/-- A warp that answers every box with `smallPatch`. -/
def constWarp : RotatedRect → Mat := fun _ => smallPatch

/-- A window whose measurement output is `oneStripe` (4 rows) and whose defect
output is `whiteSixRows` (6 rows). -/
def bothCached : MainWindow :=
  { img := whiteSixRows, measure_output := oneStripe, defect_outut := whiteSixRows }

/-- A window after `find_defect` alone has run: the defect output is
`whiteSixRows`, the measurement output is still the empty raster. -/
def defectOnly : MainWindow :=
  { img := whiteSixRows, measure_output := { rows := 0, cols := 0, px := fun _ _ => 0 },
    defect_outut := whiteSixRows }

/-! ## Facts about the row scan -/

theorem findNonZero_row (m : Mat) (s : Nat) :
    findNonZero (m.row s) = (nonZeroCols m s).map colPoint := by
  simp [findNonZero, Mat.row, nonZeroCols, List.range_succ, colPoint]

theorem pointBuffer_get? (pts : List Point) (i : Nat) :
    (pointBuffer pts).get? (2 * i) = (pts.get? i).map fun p => p.x := by
  induction pts generalizing i with
  | nil => simp [pointBuffer]
  | cons p ps ih =>
    cases i with
    | zero => simp [pointBuffer]
    | succ j =>
      have h : 2 * (j + 1) = 2 * j + 1 + 1 := by ring
      have ih2 := ih j
      simp only [pointBuffer, List.get?_eq_getElem?] at ih2
      simp [pointBuffer, h, ih2]

theorem atInt32_nat (pts : List Point) (i : Nat) :
    atInt32 pts (i : Int) = (pts.get? i).map fun p => p.x := by
  unfold atInt32
  by_cases h : i < pts.length
  · have h2 : (0 : Int) ≤ (i : Int) ∧ (i : Int) < (pts.length : Int) := by omega
    rw [if_pos h2, Int.toNat_ofNat, pointBuffer_get?]
  · have h2 : ¬ ((0 : Int) ≤ (i : Int) ∧ (i : Int) < (pts.length : Int)) := by omega
    rw [if_neg h2, List.get?_eq_none.mpr (by omega)]
    rfl

/-- The loop body in terms of the first and the last nonzero column. -/
theorem measureRow_eq (thresh : Mat) (s : Nat) (hs : s < thresh.rows) :
    measureRow thresh s =
      match (nonZeroCols thresh s).head?, (nonZeroCols thresh s).getLast? with
      | some l, some r =>
          some { y := Int.ofNat s, xL := Int.ofNat l, xR := Int.ofNat r,
                 diamaeter := Int.ofNat r - Int.ofNat l }
      | _, _ => none := by
  unfold measureRow
  rw [if_neg (by omega)]
  simp only [findNonZero_row]
  rcases h : nonZeroCols thresh s with _ | ⟨a, t⟩
  · simp [atInt32]
  · have h0 : atInt32 (List.map colPoint (a :: t)) 0 = some (Int.ofNat a) := by
      have := atInt32_nat (List.map colPoint (a :: t)) 0
      simpa [colPoint] using this
    have h1 : atInt32 (List.map colPoint (a :: t))
        (((List.map colPoint (a :: t)).length : Int) - 1)
        = some (Int.ofNat ((a :: t).getLast (by simp))) := by
      have := atInt32_nat (List.map colPoint (a :: t)) t.length
      have e : (((List.map colPoint (a :: t)).length : Int) - 1) = (t.length : Int) := by simp
      have hl : (a :: t)[t.length]? = some ((a :: t).getLast (by simp)) := by
        rw [List.getLast_eq_getElem, List.getElem?_eq_getElem (by simp)]
        rfl
      rw [e, this, List.get?_eq_getElem?, List.getElem?_map, hl]
      rfl
    rw [h0, h1]
    simp [List.getLast?_eq_getLast]

theorem nonZeroCols_pairwise (m : Mat) (s : Nat) : (nonZeroCols m s).Pairwise (· < ·) :=
  (List.pairwise_lt_range m.cols).sublist (List.filter_sublist _)

theorem mem_nonZeroCols {m : Mat} {s c : Nat} :
    c ∈ nonZeroCols m s ↔ c < m.cols ∧ m.px s c ≠ 0 := by
  simp [nonZeroCols]

theorem head?_nonZeroCols_le {m : Mat} {s l : Nat} (h : (nonZeroCols m s).head? = some l) :
    l ∈ nonZeroCols m s ∧ ∀ c ∈ nonZeroCols m s, l ≤ c := by
  have hp := nonZeroCols_pairwise m s
  rcases hL : nonZeroCols m s with _ | ⟨a, t⟩
  · rw [hL] at h; simp at h
  · rw [hL] at h hp
    simp only [List.head?_cons, Option.some.injEq] at h
    subst h
    refine ⟨List.mem_cons_self _ _, fun c hc => ?_⟩
    rcases List.mem_cons.mp hc with rfl | hc
    · exact le_rfl
    · exact le_of_lt ((List.pairwise_cons.mp hp).1 c hc)

theorem getLast?_nonZeroCols_ge {m : Mat} {s r : Nat} (h : (nonZeroCols m s).getLast? = some r) :
    r ∈ nonZeroCols m s ∧ ∀ c ∈ nonZeroCols m s, c ≤ r := by
  have hp := nonZeroCols_pairwise m s
  have hmem : r ∈ nonZeroCols m s := List.mem_of_getLast?_eq_some h
  refine ⟨hmem, fun c hc => ?_⟩
  obtain ⟨init, hinit⟩ : ∃ init, nonZeroCols m s = init ++ [r] := by
    rcases List.eq_nil_or_concat (nonZeroCols m s) with hn | ⟨init, b, hb⟩
    · rw [hn] at h; simp at h
    · rw [hb] at h
      simp at h
      exact ⟨init, by rw [hb, h]; simp⟩
  rw [hinit] at hp hc
  rcases List.mem_append.mp hc with hc | hc
  · exact le_of_lt ((List.pairwise_append.mp hp).2.2 c hc r (by simp))
  · simp at hc; omega


/-- What the loop body returns, when it returns: the row, then the least and the
greatest nonzero column of that row. -/
theorem measureRow_some {thresh : Mat} {s : Nat} {m : Measurement}
    (h : measureRow thresh s = some m) :
    s < thresh.rows ∧ ∃ l r : Nat,
      m = { y := Int.ofNat s, xL := Int.ofNat l, xR := Int.ofNat r,
            diamaeter := Int.ofNat r - Int.ofNat l } ∧
      (l ∈ nonZeroCols thresh s ∧ ∀ c ∈ nonZeroCols thresh s, l ≤ c) ∧
      (r ∈ nonZeroCols thresh s ∧ ∀ c ∈ nonZeroCols thresh s, c ≤ r) := by
  have hs : s < thresh.rows := by
    by_contra hcon
    unfold measureRow at h
    rw [if_pos (by omega)] at h
    exact Option.noConfusion h
  refine ⟨hs, ?_⟩
  rw [measureRow_eq thresh s hs] at h
  rcases hl : (nonZeroCols thresh s).head? with _ | l
  · rw [hl] at h; simp at h
  · rcases hr : (nonZeroCols thresh s).getLast? with _ | r
    · rw [hl, hr] at h; simp at h
    · rw [hl, hr] at h
      simp only [Option.some.injEq] at h
      exact ⟨l, r, h.symm, head?_nonZeroCols_le hl, getLast?_nonZeroCols_ge hr⟩

/-- The loop body returns a measurement on every row that has a nonzero pixel. -/
theorem measureRow_isSome {thresh : Mat} {s c : Nat} (hs : s < thresh.rows)
    (hc : c ∈ nonZeroCols thresh s) : ∃ m, measureRow thresh s = some m := by
  rw [measureRow_eq thresh s hs]
  rcases hL : nonZeroCols thresh s with _ | ⟨a, t⟩
  · rw [hL] at hc; simp at hc
  · simp [List.getLast?_eq_getLast]

/-- The loop body fails on a row without nonzero pixel. -/
theorem measureRow_none_of_empty {thresh : Mat} {s : Nat}
    (h : nonZeroCols thresh s = []) : measureRow thresh s = none := by
  by_cases hs : s < thresh.rows
  · rw [measureRow_eq thresh s hs, h]; rfl
  · unfold measureRow
    rw [if_pos (by omega)]

theorem measureLoop_mem {thresh : Mat} {l : List Nat} {m : Measurement}
    (h : m ∈ (measureLoop thresh l).measurements) :
    ∃ s ∈ l, measureRow thresh s = some m := by
  induction l with
  | nil => simp [measureLoop] at h
  | cons s rest ih =>
    unfold measureLoop at h
    rcases hrow : measureRow thresh s with _ | m0
    · rw [hrow] at h; simp at h
    · rw [hrow] at h
      simp only [List.mem_cons] at h
      rcases h with rfl | h
      · exact ⟨s, List.mem_cons_self _ _, hrow⟩
      · obtain ⟨s1, hs1, hm⟩ := ih h
        exact ⟨s1, List.mem_cons_of_mem _ hs1, hm⟩

theorem measureLoop_rows_initial (thresh : Mat) (l : List Nat) :
    ((measureLoop thresh l).measurements.map fun m => m.y) <+: l.map Int.ofNat := by
  induction l with
  | nil => simp [measureLoop]
  | cons s rest ih =>
    unfold measureLoop
    rcases hrow : measureRow thresh s with _ | m0
    · simp
    · obtain ⟨_, l0, r0, hm, _⟩ := measureRow_some hrow
      subst hm
      simpa using ih

theorem measure_diameter_mem {blur : Mat} {m : Measurement}
    (h : m ∈ (measure_diameter blur).measurements) :
    blur.empty = false ∧ ∃ s ∈ splits blur.rows, measureRow (threshold blur 60 255) s = some m := by
  unfold measure_diameter at h
  by_cases he : blur.empty = true
  · rw [if_pos he] at h; simp at h
  · rw [if_neg he] at h
    exact ⟨by simpa using he, measureLoop_mem h⟩

/-- Every sampled row of a non-empty raster is a row of its mask. -/
theorem splits_lt_rows {blur : Mat} {s : Nat} (hne : blur.empty = false)
    (hs : s ∈ splits blur.rows) : s < (threshold blur 60 255).rows := by
  have hr : 0 < blur.rows := by
    unfold Mat.empty at hne
    simp only [Bool.or_eq_false_iff, beq_eq_false_iff_ne, ne_eq] at hne
    omega
  show s < blur.rows
  simp only [splits, List.mem_cons, List.mem_singleton, List.not_mem_nil, or_false] at hs
  omega

theorem splits_eq (rows : Nat) : splits rows = [rows / 4, rows / 4 * 2, rows / 4 * 3] := rfl

/-! ## Properties of `measure_diameter` -/

/-- C3, as stated, fails: on a raster of 6 rows the sampled rows are 1, 2, 3 and
not `6/4 = 1`, `2*6/4 = 3`, `3*6/4 = 4`. -/
theorem splits_ne_floor_multiples :
    ((measure_diameter whiteSixRows).measurements.map fun m => m.y) = [1, 2, 3] ∧
    splits whiteSixRows.rows = [1, 2, 3] ∧
    [whiteSixRows.rows / 4, 2 * whiteSixRows.rows / 4, 3 * whiteSixRows.rows / 4] = [1, 3, 4] ∧
    splits whiteSixRows.rows ≠
      [whiteSixRows.rows / 4, 2 * whiteSixRows.rows / 4, 3 * whiteSixRows.rows / 4] := by
  decide

/-- C3, amended: the rows sampled by `measure_diameter` are `q`, `2q`, `3q` with
`q = rows / 4` (integer division), in that order, and the rows it measures are
an initial part of these; the three rows are `rows/4`, `2*rows/4`, `3*rows/4`
exactly when `rows % 4 ≤ 1`. -/
theorem splits_multiples_of_quarter (blur : Mat) :
    splits blur.rows = [blur.rows / 4, 2 * (blur.rows / 4), 3 * (blur.rows / 4)] ∧
    (((measure_diameter blur).measurements.map fun m => m.y) <+:
      (splits blur.rows).map Int.ofNat) ∧
    (splits blur.rows = [blur.rows / 4, 2 * blur.rows / 4, 3 * blur.rows / 4] ↔
      blur.rows % 4 ≤ 1) := by
  refine ⟨?_, ?_, ?_⟩
  · simp [splits_eq, Nat.mul_comm]
  · unfold measure_diameter
    by_cases he : blur.empty = true
    · rw [if_pos he]; simp
    · rw [if_neg he]
      exact measureLoop_rows_initial _ _
  · rw [splits_eq]
    simp only [List.cons.injEq, and_true, true_and]
    omega

/-- For a non-empty raster and a sampled row `s` of its threshold mask that has
a nonzero pixel, the loop body of `measure_diameter` yields the measurement
whose `xL` is the least column with a nonzero pixel in row `s`, whose `xR` is the
greatest such column and whose diameter is `xR - xL`; a measurement that the run
emits for row `s` is this one. -/
theorem sampled_row_leftmost_rightmost (blur : Mat) (s : Nat) (hne : blur.empty = false)
    (hs : s ∈ splits blur.rows)
    (hnz : ∃ c, c < blur.cols ∧ (threshold blur 60 255).px s c ≠ 0) :
    ∃ l r : Nat,
      measureRow (threshold blur 60 255) s =
        some { y := Int.ofNat s, xL := Int.ofNat l, xR := Int.ofNat r,
               diamaeter := Int.ofNat r - Int.ofNat l } ∧
      (l < blur.cols ∧ (threshold blur 60 255).px s l ≠ 0 ∧
        ∀ c, c < blur.cols → (threshold blur 60 255).px s c ≠ 0 → l ≤ c) ∧
      (r < blur.cols ∧ (threshold blur 60 255).px s r ≠ 0 ∧
        ∀ c, c < blur.cols → (threshold blur 60 255).px s c ≠ 0 → c ≤ r) ∧
      (∀ m ∈ (measure_diameter blur).measurements, m.y = Int.ofNat s →
        m = { y := Int.ofNat s, xL := Int.ofNat l, xR := Int.ofNat r,
              diamaeter := Int.ofNat r - Int.ofNat l }) := by
  have hrow : s < (threshold blur 60 255).rows := splits_lt_rows hne hs
  obtain ⟨c, hc, hpx⟩ := hnz
  obtain ⟨m, hm⟩ := measureRow_isSome hrow
    (mem_nonZeroCols.mpr (show c < (threshold blur 60 255).cols ∧ _ from ⟨hc, hpx⟩))
  obtain ⟨_, l, r, hmeq, ⟨hl, hlmin⟩, ⟨hr, hrmax⟩⟩ := measureRow_some hm
  refine ⟨l, r, by rw [hm, hmeq], ?_, ?_, ?_⟩
  · exact ⟨(mem_nonZeroCols.mp hl).1, (mem_nonZeroCols.mp hl).2,
      fun c hc hpx => hlmin c (mem_nonZeroCols.mpr ⟨hc, hpx⟩)⟩
  · exact ⟨(mem_nonZeroCols.mp hr).1, (mem_nonZeroCols.mp hr).2,
      fun c hc hpx => hrmax c (mem_nonZeroCols.mpr ⟨hc, hpx⟩)⟩
  · intro m1 hm1 hy
    obtain ⟨_, s1, _, hrow1⟩ := measure_diameter_mem hm1
    obtain ⟨_, l1, r1, hm1eq, _⟩ := measureRow_some hrow1
    have hs1 : s1 = s := by
      rw [hm1eq] at hy
      simpa using hy
    rw [hs1, hm] at hrow1
    rw [← Option.some.inj hrow1, hmeq]

/-- When every sampled row of the mask has a nonzero pixel the run measures the
three rows in order and ends without fault. -/
theorem measure_diameter_complete (blur : Mat) (hne : blur.empty = false)
    (hall : ∀ s ∈ splits blur.rows,
      ∃ c, c < blur.cols ∧ (threshold blur 60 255).px s c ≠ 0) :
    ∃ m1 m2 m3 : Measurement,
      measureRow (threshold blur 60 255) (blur.rows / 4) = some m1 ∧
      measureRow (threshold blur 60 255) (blur.rows / 4 * 2) = some m2 ∧
      measureRow (threshold blur 60 255) (blur.rows / 4 * 3) = some m3 ∧
      measure_diameter blur = { measurements := [m1, m2, m3], fault := false } := by
  have hrow : ∀ s ∈ splits blur.rows, ∃ m, measureRow (threshold blur 60 255) s = some m := by
    intro s hs
    obtain ⟨c, hc, hpx⟩ := hall s hs
    exact measureRow_isSome (splits_lt_rows hne hs)
      (mem_nonZeroCols.mpr (show c < (threshold blur 60 255).cols ∧ _ from ⟨hc, hpx⟩))
  obtain ⟨m1, h1⟩ := hrow (blur.rows / 4) (by simp [splits_eq])
  obtain ⟨m2, h2⟩ := hrow (blur.rows / 4 * 2) (by simp [splits_eq])
  obtain ⟨m3, h3⟩ := hrow (blur.rows / 4 * 3) (by simp [splits_eq])
  refine ⟨m1, m2, m3, h1, h2, h3, ?_⟩
  unfold measure_diameter
  rw [if_neg (by rw [hne]; exact Bool.false_ne_true)]
  simp only [splits_eq, measureLoop, h1, h2, h3]

/-- C4 fails on the code: on the image of 8 rows that is black in rows 0 to 3
and white in rows 4 to 7 the sampled rows are 2, 4, 6. Row 4 of the mask has
nonzero pixels, least column 0 and greatest column 3, yet `measure_diameter`
reports no measurement for it: the run stops at row 2, which has no nonzero
pixel, on the read outside the buffer of `nonZero`. -/
theorem sampled_row_unmeasured_after_empty_row :
    darkTop.empty = false ∧ splits darkTop.rows = [2, 4, 6] ∧
    (∃ c, c < darkTop.cols ∧ (threshold darkTop 60 255).px 4 c ≠ 0) ∧
    measureRow (threshold darkTop 60 255) 4
      = some { y := 4, xL := 0, xR := 3, diamaeter := 3 } ∧
    measureRow (threshold darkTop 60 255) 2 = none ∧
    measure_diameter darkTop = { measurements := [], fault := true } := by
  refine ⟨by decide, by decide, ⟨0, by decide, by decide⟩, by decide, by decide, by decide⟩

/-- C5, as stated, fails: on `oneStripe` every sampled row has a single nonzero
pixel and the measurement emitted has `xL = xR`. -/
theorem measurement_not_strict :
    ¬ ∀ m ∈ (measure_diameter oneStripe).measurements,
        0 ≤ m.xL ∧ m.xL < m.xR ∧ m.xR < Int.ofNat oneStripe.cols ∧
        0 ≤ m.y ∧ m.y < Int.ofNat oneStripe.rows := by
  decide

/-- C5, amended: every measurement that `measure_diameter` emits satisfies
`0 ≤ xL ≤ xR < cols` and `0 ≤ y < rows`; `xL = xR` when row `y` of the mask has
exactly one nonzero pixel. -/
theorem measurement_in_range (blur : Mat) (m : Measurement)
    (hm : m ∈ (measure_diameter blur).measurements) :
    0 ≤ m.xL ∧ m.xL ≤ m.xR ∧ m.xR < Int.ofNat blur.cols ∧
    0 ≤ m.y ∧ m.y < Int.ofNat blur.rows ∧
    ((∀ c1 c2, c1 < blur.cols → c2 < blur.cols →
        (threshold blur 60 255).px m.y.toNat c1 ≠ 0 →
        (threshold blur 60 255).px m.y.toNat c2 ≠ 0 → c1 = c2) → m.xL = m.xR) := by
  obtain ⟨_, s, _, hrow⟩ := measure_diameter_mem hm
  obtain ⟨hs, l, r, hmeq, ⟨hl, hlmin⟩, ⟨hr, _⟩⟩ := measureRow_some hrow
  have hlr : l ≤ r := hlmin r hr
  have hrc : r < blur.cols := (mem_nonZeroCols.mp hr).1
  have hlc : l < blur.cols := (mem_nonZeroCols.mp hl).1
  have hs2 : s < blur.rows := hs
  subst hmeq
  simp only [Int.ofNat_eq_coe, Int.toNat_ofNat]
  refine ⟨by omega, by omega, by omega, by omega, by omega, fun hone => ?_⟩
  have := hone l r hlc hrc (mem_nonZeroCols.mp hl).2 (mem_nonZeroCols.mp hr).2
  omega

/-- C5, amended, at the first measurement of `twoStripes`. -/
theorem measurement_in_range_witness :
    ({ y := 1, xL := 1, xR := 3, diamaeter := 2 } : Measurement) ∈
        (measure_diameter twoStripes).measurements ∧
    ((0 : Int) ≤ 1 ∧ (1 : Int) ≤ 3 ∧ (3 : Int) < Int.ofNat twoStripes.cols ∧
      (0 : Int) ≤ 1 ∧ (1 : Int) < Int.ofNat twoStripes.rows ∧
      ((∀ c1 c2, c1 < twoStripes.cols → c2 < twoStripes.cols →
          (threshold twoStripes 60 255).px (1 : Int).toNat c1 ≠ 0 →
          (threshold twoStripes 60 255).px (1 : Int).toNat c2 ≠ 0 → c1 = c2) →
        (1 : Int) = 3)) :=
  ⟨by decide,
    measurement_in_range twoStripes { y := 1, xL := 1, xR := 3, diamaeter := 2 } (by decide)⟩

/-- C6 fails on the code: for a black raster the first sampled row has no
nonzero pixel and the run stops on a read outside the buffer of `nonZero`
instead of skipping the row; on `blackRowOne` the rows 2 and 3, which have
foreground, are never measured. -/
theorem measure_diameter_faults_on_empty_row :
    measure_diameter blackRaster = { measurements := [], fault := true } ∧
    measure_diameter blackRowOne = { measurements := [], fault := true } ∧
    (∃ m, measureRow (threshold blackRowOne 60 255) 2 = some m) := by
  refine ⟨by decide, by decide, ?_⟩
  exact ⟨{ y := 2, xL := 0, xR := 3, diamaeter := 3 }, by decide⟩

/-! ## Facts about rounding -/

theorem roundHalfEven_le_of_le {x : ℚ} {n : ℤ} (h : x ≤ (n : ℚ)) : roundHalfEven x ≤ n := by
  have hf : (⌊x⌋ : ℚ) ≤ x := Int.floor_le x
  have hfn : ⌊x⌋ ≤ n := Int.cast_le.mp (le_trans hf h)
  unfold roundHalfEven
  simp only
  split_ifs with h1 h2 h3
  · exact hfn
  · have : (⌊x⌋ : ℚ) < (n : ℚ) := by linarith
    have := Int.cast_lt.mp this
    omega
  · exact hfn
  · have : (⌊x⌋ : ℚ) < (n : ℚ) := by linarith
    have := Int.cast_lt.mp this
    omega

theorem le_roundHalfEven_of_le {x : ℚ} {n : ℤ} (h : (n : ℚ) ≤ x) : n ≤ roundHalfEven x := by
  have hfn : n ≤ ⌊x⌋ := Int.le_floor.mpr h
  unfold roundHalfEven
  simp only
  split_ifs <;> omega

theorem roundHalfEven_lt_of_lt_sub_half {x : ℚ} {n : ℤ} (h : x < (n : ℚ) - 1 / 2) :
    roundHalfEven x < n := by
  have hf : (⌊x⌋ : ℚ) ≤ x := Int.floor_le x
  have hq : (⌊x⌋ : ℚ) < (n : ℚ) := by linarith
  have hfn : ⌊x⌋ < n := Int.cast_lt.mp hq
  have hstep : ¬ x - (⌊x⌋ : ℚ) < 1 / 2 → ⌊x⌋ + 1 < n := by
    intro h1
    have : ((⌊x⌋ + 1 : ℤ) : ℚ) < (n : ℚ) := by push_cast; linarith
    exact Int.cast_lt.mp this
  unfold roundHalfEven
  simp only
  split_ifs with h1 h2 h3
  · exact hfn
  · exact hstep h1
  · exact hfn
  · exact hstep h1

theorem roundHalfEven_le_odd_iff {x : ℚ} {n : ℤ} (hodd : n % 2 = 1) :
    roundHalfEven x ≤ n ↔ x < (n : ℚ) + 1 / 2 := by
  constructor
  · intro h
    by_contra hcon
    push_neg at hcon
    have hfn : n ≤ ⌊x⌋ := Int.le_floor.mpr (by linarith)
    have hlt : x < (⌊x⌋ : ℚ) + 1 := Int.lt_floor_add_one x
    unfold roundHalfEven at h
    simp only at h
    split_ifs at h with h1 h2 h3
    · have : ((n : ℤ) : ℚ) < (⌊x⌋ : ℚ) := by linarith
      have := Int.cast_lt.mp this
      omega
    · omega
    · have h4 : ⌊x⌋ = n := by omega
      omega
    · omega
  · intro h
    have : roundHalfEven x < n + 1 :=
      roundHalfEven_lt_of_lt_sub_half (by push_cast; linarith)
    omega

theorem roundHalfEven_eq_of_lt_half {x : ℚ} {n : ℤ} (h1 : (n : ℚ) ≤ x)
    (h2 : x < (n : ℚ) + 1 / 2) : roundHalfEven x = n := by
  have hf : ⌊x⌋ = n := Int.floor_eq_iff.mpr ⟨h1, by linarith⟩
  unfold roundHalfEven
  simp only
  rw [hf, if_pos (by linarith)]

theorem roundHalfEven_intCast (n : ℤ) : roundHalfEven (n : ℚ) = n :=
  roundHalfEven_eq_of_lt_half le_rfl (by linarith)

theorem fpRound_eq (prec : ℕ) (emin : ℤ) (x : ℚ) :
    fpRound prec emin x =
      (roundHalfEven (x / (2 : ℚ) ^ ulpExp prec emin x) : ℚ) * (2 : ℚ) ^ ulpExp prec emin x :=
  rfl

theorem two_zpow_pos (k : ℤ) : (0 : ℚ) < (2 : ℚ) ^ k := zpow_pos (by norm_num) k

/-- In the binade `[2^e, 2^(e+1))` above the subnormal range the last place is
`2^(e - (prec - 1))`. -/
theorem ulpExp_of_binade (prec : ℕ) (emin : ℤ) {e : ℤ} {x : ℚ} (h1 : (2 : ℚ) ^ e ≤ x)
    (h2 : x < (2 : ℚ) ^ (e + 1)) (he : emin ≤ e) :
    ulpExp prec emin x = e - ((prec : ℤ) - 1) := by
  have hx : 0 < x := lt_of_lt_of_le (two_zpow_pos e) h1
  have habs : |x| = x := abs_of_pos hx
  have hlog : Int.log 2 x = e := by
    have ha : e ≤ Int.log 2 x :=
      (Int.zpow_le_iff_le_log (by norm_num) hx).mp (by simpa using h1)
    have hb : Int.log 2 x < e + 1 :=
      (Int.lt_zpow_iff_log_lt (by norm_num) hx).mp (by simpa using h2)
    omega
  unfold ulpExp
  rw [habs, hlog, max_eq_left he]

/-- Below `2^(t+1)` the last place is at most `2^(t - (prec - 1))`. -/
theorem ulpExp_le (prec : ℕ) (emin : ℤ) {t : ℤ} {x : ℚ} (hx : 0 < x) (h : x < (2 : ℚ) ^ (t + 1))
    (ht : emin ≤ t) : ulpExp prec emin x ≤ t - ((prec : ℤ) - 1) := by
  have hb : Int.log 2 x < t + 1 :=
    (Int.lt_zpow_iff_log_lt (by norm_num) hx).mp (by simpa using h)
  unfold ulpExp
  rw [abs_of_pos hx]
  have : max (Int.log 2 x) emin ≤ t := max_le (by omega) ht
  omega

/-- A multiple of `2^k` is a multiple of every smaller power of two. -/
theorem grid_of_le {j k : ℤ} (hjk : j ≤ k) (N : ℤ) :
    ∃ M : ℤ, (N : ℚ) * (2 : ℚ) ^ k = (M : ℚ) * (2 : ℚ) ^ j := by
  refine ⟨N * 2 ^ (k - j).toNat, ?_⟩
  have hk : k = j + ((k - j).toNat : ℤ) := by omega
  rw [hk, zpow_add₀ (by norm_num : (2 : ℚ) ≠ 0)]
  have : (j + ((k - j).toNat : ℤ) - j).toNat = (k - j).toNat := by omega
  rw [this]
  push_cast
  rw [zpow_natCast]
  ring

/-- Rounding does not rise above a value of the grid of last places. -/
theorem fpRound_le_of_grid {prec : ℕ} {emin : ℤ} {x y : ℚ} (hxy : x ≤ y)
    (hy : ∃ M : ℤ, y = (M : ℚ) * (2 : ℚ) ^ ulpExp prec emin x) : fpRound prec emin x ≤ y := by
  obtain ⟨M, hM⟩ := hy
  have hu := two_zpow_pos (ulpExp prec emin x)
  rw [fpRound_eq, hM]
  have h1 : x / (2 : ℚ) ^ ulpExp prec emin x ≤ (M : ℚ) := by
    rw [div_le_iff₀ hu, ← hM]; exact hxy
  have h2 : roundHalfEven (x / (2 : ℚ) ^ ulpExp prec emin x) ≤ M := roundHalfEven_le_of_le h1
  have h3 : ((roundHalfEven (x / (2 : ℚ) ^ ulpExp prec emin x) : ℤ) : ℚ) ≤ (M : ℚ) :=
    Int.cast_le.mpr h2
  exact mul_le_mul_of_nonneg_right h3 (le_of_lt hu)

/-- Rounding does not fall below a value of the grid of last places. -/
theorem le_fpRound_of_grid {prec : ℕ} {emin : ℤ} {x y : ℚ} (hxy : y ≤ x)
    (hy : ∃ M : ℤ, y = (M : ℚ) * (2 : ℚ) ^ ulpExp prec emin x) : y ≤ fpRound prec emin x := by
  obtain ⟨M, hM⟩ := hy
  have hu := two_zpow_pos (ulpExp prec emin x)
  rw [fpRound_eq, hM]
  have h1 : (M : ℚ) ≤ x / (2 : ℚ) ^ ulpExp prec emin x := by
    rw [le_div_iff₀ hu, ← hM]; exact hxy
  have h2 : M ≤ roundHalfEven (x / (2 : ℚ) ^ ulpExp prec emin x) := le_roundHalfEven_of_le h1
  have h3 : (M : ℚ) ≤ ((roundHalfEven (x / (2 : ℚ) ^ ulpExp prec emin x) : ℤ) : ℚ) :=
    Int.cast_le.mpr h2
  exact mul_le_mul_of_nonneg_right h3 (le_of_lt hu)

theorem fpRound_zero (prec : ℕ) (emin : ℤ) : fpRound prec emin 0 = 0 := by
  rw [fpRound_eq, zero_div]
  have : roundHalfEven (0 : ℚ) = 0 := by
    have := roundHalfEven_intCast 0
    simpa using this
  rw [this]
  simp

/-! ## Facts about the aspect-ratio test -/

theorem aspectCut_eq : aspectCut = 7656119366529843 / 9007199254740992 := by
  unfold aspectCut f64
  have hu : ulpExp 53 (-1022) (85 / 100 : ℚ) = -53 := by
    rw [ulpExp_of_binade 53 (-1022) (e := -1) (by norm_num) (by norm_num) (by norm_num)]
    norm_num
  have hr : roundHalfEven ((85 / 100 : ℚ) / (2 : ℚ) ^ (-53 : ℤ)) = 7656119366529843 :=
    roundHalfEven_eq_of_lt_half (by norm_num) (by norm_num)
  rw [fpRound_eq, hu, hr]
  norm_num

/-- The quotient of a box at least twice as long as wide rounds to at most `1/2`. -/
theorem f32_le_half {q : ℚ} (h0 : 0 < q) (h : q < 1 / 2) : f32 q ≤ 1 / 2 := by
  unfold f32
  apply fpRound_le_of_grid (le_of_lt h)
  have hle : ulpExp 24 (-126) q ≤ -1 := by
    have := ulpExp_le 24 (-126) (t := -2) h0 (by norm_num; linarith)
      (by norm_num)
    norm_num at this
    omega
  obtain ⟨M, hM⟩ := grid_of_le hle 1
  exact ⟨M, by rw [← hM]; norm_num⟩

theorem f32_of_half_le {q : ℚ} (h1 : 1 / 2 ≤ q) (h2 : q < 1) :
    f32 q = (roundHalfEven (q * 16777216) : ℚ) / 16777216 := by
  unfold f32
  have hu : ulpExp 24 (-126) q = -24 := by
    rw [ulpExp_of_binade 24 (-126) (e := -1) (by norm_num; linarith) (by norm_num; linarith)
      (by norm_num)]
    norm_num
  rw [fpRound_eq, hu]
  have h24 : (2 : ℚ) ^ (-24 : ℤ) = 1 / 16777216 := by norm_num
  rw [h24]
  have : q / (1 / 16777216) = q * 16777216 := by ring
  rw [this]
  ring

theorem f32_one : f32 1 = 1 := by
  unfold f32
  have hu : ulpExp 24 (-126) (1 : ℚ) = -23 := by
    rw [ulpExp_of_binade 24 (-126) (e := 0) (by norm_num) (by norm_num) (by norm_num)]
    norm_num
  have hr : roundHalfEven ((1 : ℚ) / (2 : ℚ) ^ (-23 : ℤ)) = 8388608 := by
    have h := roundHalfEven_intCast 8388608
    have e : ((1 : ℚ) / (2 : ℚ) ^ (-23 : ℤ)) = ((8388608 : ℤ) : ℚ) := by norm_num
    rw [e, h]
  rw [fpRound_eq, hu, hr]
  norm_num

/-- The test `ratio <= 0.85` on the rounded quotient, in terms of the exact
quotient `q` of the sides: it holds exactly below the midpoint of the two
`float` values around `0.85`. -/
theorem f32_le_aspectCut_iff {q : ℚ} (h0 : 0 < q) (h1 : q ≤ 1) :
    f32 q ≤ aspectCut ↔ q < 28521267 / 33554432 := by
  rw [aspectCut_eq]
  rcases lt_or_le q (1 / 2) with hlt | hge
  · have := f32_le_half h0 hlt
    constructor
    · intro _; linarith
    · intro _; linarith
  · rcases lt_or_eq_of_le h1 with hlt1 | heq1
    · rw [f32_of_half_le hge hlt1]
      have hodd : (14260633 : ℤ) % 2 = 1 := by norm_num
      have key := roundHalfEven_le_odd_iff (x := q * 16777216) hodd
      constructor
      · intro h
        have hq : ((roundHalfEven (q * 16777216) : ℤ) : ℚ) < ((14260634 : ℤ) : ℚ) := by
          rw [div_le_iff₀ (by norm_num)] at h
          push_cast
          linarith
        have hz : roundHalfEven (q * 16777216) ≤ 14260633 := by
          have := Int.cast_lt.mp hq
          omega
        have := key.mp hz
        push_cast at this
        linarith
      · intro h
        have hz : roundHalfEven (q * 16777216) ≤ 14260633 :=
          key.mpr (by push_cast; linarith)
        have hq : ((roundHalfEven (q * 16777216) : ℤ) : ℚ) ≤ ((14260633 : ℤ) : ℚ) :=
          Int.cast_le.mpr hz
        rw [div_le_iff₀ (by norm_num)]
        push_cast at hq
        linarith
    · rw [heq1, f32_one]
      constructor
      · intro h; norm_num at h
      · intro h; norm_num at h

/-! ## Properties of `classify_defect` -/

/-- C1, as stated, fails: a box of 17 by 20 has `min/max = 0.85 ≤ 0.85`, yet its
`float` quotient exceeds the `double` constant `0.85` and the label is 0
(pinhole), not 1 (cut). -/
theorem classify_label_boundary :
    (0 : ℚ) < 17 ∧ (0 : ℚ) < 20 ∧ min (17 : ℚ) 20 / max (17 : ℚ) 20 ≤ 85 / 100 ∧
    ¬ (0 : ℤ) > 18000 ∧ classify_label 0 17 20 0 = 0 ∧
    classify_label 0 17 20 0 ≠
      (if (0 : ℤ) > 18000 then 2
       else if min (17 : ℚ) 20 / max (17 : ℚ) 20 ≤ 85 / 100 then 1 else 0) := by
  have hq : ¬ f32 (17 / 20) ≤ aspectCut := by
    rw [f32_le_aspectCut_iff (by norm_num) (by norm_num)]
    norm_num
  have hm : min (17 : ℚ) 20 / max (17 : ℚ) 20 ≤ 85 / 100 := by
    rw [min_eq_left (by norm_num), max_eq_right (by norm_num)]
    norm_num
  have hl : classify_label 0 17 20 0 = 0 := by
    unfold classify_label
    norm_num [hq]
  refine ⟨by norm_num, by norm_num, hm, by norm_num, hl, ?_⟩
  rw [hl, if_neg (by norm_num), if_pos hm]
  norm_num

/-- C1, amended: for a box of width `w > 0` and height `h > 0` and every value
of `avgIntensity`, the label is 2 if `avgIntensity > 18000`; otherwise 1 if
`min(w,h)/max(w,h) < 28521267/33554432` (the midpoint below the `float` nearest
to `0.85`, about `0.849999994`); otherwise 0. The label is in `{0,1,2}`, and a
square box with `avgIntensity ≤ 18000` gets 0. -/
theorem classify_label_rule (avgIntensity : ℤ) (w h ratio0 : ℚ) (hw : 0 < w) (hh : 0 < h) :
    classify_label avgIntensity w h ratio0 =
        (if avgIntensity > 18000 then 2
         else if min w h / max w h < 28521267 / 33554432 then 1 else 0) ∧
    (classify_label avgIntensity w h ratio0 = 0 ∨ classify_label avgIntensity w h ratio0 = 1 ∨
      classify_label avgIntensity w h ratio0 = 2) ∧
    (w = h → avgIntensity ≤ 18000 → classify_label avgIntensity w h ratio0 = 0) := by
  have main : classify_label avgIntensity w h ratio0 =
      (if avgIntensity > 18000 then 2
       else if min w h / max w h < 28521267 / 33554432 then 1 else 0) := by
    unfold classify_label
    by_cases ha : avgIntensity > 18000
    · rw [if_pos ha, if_pos ha]
    · rw [if_neg ha, if_neg ha]
      simp only
      rcases lt_or_le w h with hlt | hle
      · have hq0 : 0 < w / h := div_pos hw hh
        have hq1 : w / h ≤ 1 := (div_le_one hh).mpr (le_of_lt hlt)
        rw [if_pos hlt, if_neg (not_le.mpr hlt), min_eq_left (le_of_lt hlt),
          max_eq_right (le_of_lt hlt)]
        by_cases hc : w / h < 28521267 / 33554432
        · rw [if_pos ((f32_le_aspectCut_iff hq0 hq1).mpr hc), if_pos hc]
        · rw [if_neg (fun hcon => hc ((f32_le_aspectCut_iff hq0 hq1).mp hcon)), if_neg hc]
      · have hq0 : 0 < h / w := div_pos hh hw
        have hq1 : h / w ≤ 1 := (div_le_one hw).mpr hle
        rw [if_pos hle, min_eq_right hle, max_eq_left hle]
        by_cases hc : h / w < 28521267 / 33554432
        · rw [if_pos ((f32_le_aspectCut_iff hq0 hq1).mpr hc), if_pos hc]
        · rw [if_neg (fun hcon => hc ((f32_le_aspectCut_iff hq0 hq1).mp hcon)), if_neg hc]
  refine ⟨main, ?_, ?_⟩
  · rw [main]
    split_ifs <;> simp
  · intro hwh ha
    rw [main, if_neg (by omega), hwh, min_self, max_self, div_self (ne_of_gt hh)]
    norm_num

/-- C1, amended, at a box of 16 by 20 with `avgIntensity = 100`. -/
theorem classify_label_rule_witness :
    ((0 : ℚ) < 16 ∧ (0 : ℚ) < 20) ∧
    (classify_label 100 16 20 0 =
        (if (100 : ℤ) > 18000 then 2
         else if min (16 : ℚ) 20 / max (16 : ℚ) 20 < 28521267 / 33554432 then 1 else 0) ∧
    (classify_label 100 16 20 0 = 0 ∨ classify_label 100 16 20 0 = 1 ∨
      classify_label 100 16 20 0 = 2) ∧
    ((16 : ℚ) = 20 → (100 : ℤ) ≤ 18000 → classify_label 100 16 20 0 = 0)) :=
  ⟨⟨by norm_num, by norm_num⟩, classify_label_rule 100 16 20 0 (by norm_num) (by norm_num)⟩

/-! ## Facts about `avgIntensity` -/

theorem truncToInt_of_range {y : ℚ} (h0 : 0 ≤ y) (h1 : ⌊y⌋ ≤ 2147483647) :
    truncToInt y = ⌊y⌋ := by
  have hf : 0 ≤ ⌊y⌋ := Int.floor_nonneg.mpr h0
  unfold truncToInt
  simp only
  rw [if_pos h0, if_pos ⟨by omega, h1⟩]

theorem truncToInt_le_max (y : ℚ) : truncToInt y ≤ 2147483647 := by
  unfold truncToInt
  simp only
  split_ifs <;> omega

/-- The conversion does not exceed an integer `N ≥ 0` that the `double` exceeds
by at most one half. -/
theorem truncToInt_le_of_le_add_half {y : ℚ} {N : ℤ} (hN : 0 ≤ N)
    (h : y ≤ (N : ℚ) + 1 / 2) : truncToInt y ≤ N := by
  have hfl : 0 ≤ y → ⌊y⌋ ≤ N := by
    intro _
    have h1 : (⌊y⌋ : ℚ) < ((N + 1 : ℤ) : ℚ) := by
      have := Int.floor_le y
      push_cast
      linarith
    have := Int.cast_lt.mp h1
    omega
  have hcl : ¬ 0 ≤ y → ⌈y⌉ ≤ N := by
    intro h0
    have : ⌈y⌉ ≤ 0 := Int.ceil_le.mpr (by push_cast; linarith)
    omega
  unfold truncToInt
  simp only
  split_ifs with h2 h3 h4
  · exact hfl h2
  · omega
  · exact hcl h2
  · omega

theorem wrapInt32_le {z : ℤ} (hz : 0 ≤ z) : wrapInt32 z ≤ z := by
  unfold wrapInt32
  omega

theorem wrapInt32_of_range {z : ℤ} (h0 : 0 ≤ z) (h1 : z ≤ 2147483647) : wrapInt32 z = z := by
  unfold wrapInt32
  omega

theorem roundHalfEven_le_add_half (x : ℚ) : (roundHalfEven x : ℚ) ≤ x + 1 / 2 := by
  have hf : (⌊x⌋ : ℚ) ≤ x := Int.floor_le x
  unfold roundHalfEven
  simp only
  split_ifs with h1 h2 h3
  · linarith
  · push_cast; linarith
  · linarith
  · push_cast; linarith

/-- Every integer is on the grid of last places of a positive `double` below
`2^53`. -/
theorem int_on_grid_f64 {x : ℚ} (hx : 0 < x) (h : x < 9007199254740992) (N : ℤ) :
    ∃ M : ℤ, (N : ℚ) = (M : ℚ) * (2 : ℚ) ^ ulpExp 53 (-1022) x := by
  have hle : ulpExp 53 (-1022) x ≤ 0 := by
    have := ulpExp_le 53 (-1022) (t := 52) hx (by norm_num; linarith)
      (by norm_num)
    norm_num at this
    omega
  obtain ⟨M, hM⟩ := grid_of_le hle N
  exact ⟨M, by rw [← hM]; norm_num⟩

theorem f64_nonneg {x : ℚ} (hx : 0 ≤ x) : 0 ≤ f64 x := by
  unfold f64
  exact le_fpRound_of_grid hx ⟨0, by simp⟩

/-- A nonnegative quotient that is at most the integer `N < 2^53` rounds to at
most `N`. -/
theorem f64_le_int {x : ℚ} {N : ℤ} (hx : 0 ≤ x) (hxN : x ≤ (N : ℚ))
    (hN : (N : ℚ) < 9007199254740992) : f64 x ≤ (N : ℚ) := by
  rcases eq_or_lt_of_le hx with h0 | hpos
  · rw [← h0]
    unfold f64
    rw [fpRound_zero]
    linarith
  · unfold f64
    exact fpRound_le_of_grid hxN (int_on_grid_f64 hpos (by linarith) N)

/-- An integer below `2^53` is a `double`. -/
theorem f64_intCast_exact {N : ℤ} (h0 : 0 ≤ N) (h : (N : ℚ) < 9007199254740992) :
    f64 (N : ℚ) = (N : ℚ) := by
  rcases eq_or_lt_of_le h0 with hz | hpos
  · rw [← hz]
    unfold f64
    simp [fpRound_zero]
  · have hq : (0 : ℚ) < (N : ℚ) := by exact_mod_cast hpos
    have hg := int_on_grid_f64 hq h N
    apply le_antisymm
    · unfold f64
      exact fpRound_le_of_grid le_rfl hg
    · unfold f64
      exact le_fpRound_of_grid le_rfl hg

theorem f64_nonpos {x : ℚ} (hx : x ≤ 0) : f64 x ≤ 0 := by
  unfold f64
  exact fpRound_le_of_grid hx ⟨0, by simp⟩

/-- Rounding a value at least 1 to `double` raises it by at most the factor
`1 + 2^-53`. -/
theorem f64_le_mul {y : ℚ} (hy : 1 ≤ y) : f64 y ≤ y * (1 + 1 / 9007199254740992) := by
  have hpos : 0 < y := by linarith
  have hb1 : (2 : ℚ) ^ Int.log 2 y ≤ y := by
    have := Int.zpow_log_le_self (R := ℚ) (b := 2) (by norm_num) hpos
    simpa using this
  have hb2 : y < (2 : ℚ) ^ (Int.log 2 y + 1) := by
    have := Int.lt_zpow_succ_log_self (R := ℚ) (b := 2) (by norm_num) y
    simpa using this
  have hmin : (-1022 : ℤ) ≤ Int.log 2 y := by
    have : (0 : ℤ) ≤ Int.log 2 y :=
      (Int.zpow_le_iff_le_log (by norm_num) hpos).mp (by norm_num; linarith)
    omega
  have hu : ulpExp 53 (-1022) y = Int.log 2 y - 52 := by
    rw [ulpExp_of_binade 53 (-1022) hb1 hb2 hmin]
    norm_num
  have hupos := two_zpow_pos (ulpExp 53 (-1022) y)
  have husmall : (2 : ℚ) ^ ulpExp 53 (-1022) y ≤ y / 4503599627370496 := by
    rw [hu, zpow_sub₀ (by norm_num : (2 : ℚ) ≠ 0)]
    have h52 : (2 : ℚ) ^ (52 : ℤ) = 4503599627370496 := by norm_num
    rw [h52]
    exact div_le_div_of_nonneg_right hb1 (by norm_num)
  unfold f64
  rw [fpRound_eq]
  have h1 := roundHalfEven_le_add_half (y / (2 : ℚ) ^ ulpExp 53 (-1022) y)
  have h2 := mul_le_mul_of_nonneg_right h1 (le_of_lt hupos)
  have h3 : (y / (2 : ℚ) ^ ulpExp 53 (-1022) y + 1 / 2) * (2 : ℚ) ^ ulpExp 53 (-1022) y
      = y + (2 : ℚ) ^ ulpExp 53 (-1022) y / 2 := by
    field_simp
    ring
  rw [h3] at h2
  linarith

/-- The `double` quotient of a sum below `2^53` by a whole width truncates to the
integer quotient. -/
theorem floor_f64_div (S n : ℕ) (hn : 0 < n) (hS : S < 9007199254740992) :
    ⌊f64 ((S : ℚ) / (n : ℚ))⌋ = ((S / n : ℕ) : ℤ) := by
  have hnq : (0 : ℚ) < (n : ℚ) := by exact_mod_cast hn
  have hSq : (S : ℚ) < 9007199254740992 := by exact_mod_cast hS
  have hn1 : (1 : ℚ) ≤ (n : ℚ) := by exact_mod_cast hn
  set k : ℕ := S / n with hk
  have hk1 : k * n ≤ S := Nat.div_mul_le_self S n
  have hk2 : S + 1 ≤ n * (k + 1) := by
    have := Nat.lt_mul_div_succ S hn
    rw [← hk] at this
    omega
  have hx0 : (0 : ℚ) ≤ (S : ℚ) / (n : ℚ) := div_nonneg (by positivity) (le_of_lt hnq)
  have hlow : ((k : ℤ) : ℚ) ≤ (S : ℚ) / (n : ℚ) := by
    rw [le_div_iff₀ hnq]
    exact_mod_cast hk1
  have hup : (S : ℚ) / (n : ℚ) ≤ (k : ℚ) + 1 - 1 / (n : ℚ) := by
    rw [div_le_iff₀ hnq]
    have : ((S + 1 : ℕ) : ℚ) ≤ ((n * (k + 1) : ℕ) : ℚ) := by exact_mod_cast hk2
    push_cast at this
    field_simp
    linarith
  have hxS : (S : ℚ) / (n : ℚ) ≤ (S : ℚ) := div_le_self (by positivity) hn1
  rw [Int.floor_eq_iff]
  rcases eq_or_lt_of_le hx0 with h0 | hpos
  · have hS0 : S = 0 := by
      have : (S : ℚ) = 0 := by
        rcases div_eq_zero_iff.mp h0.symm with h | h
        · exact h
        · linarith
      exact_mod_cast this
    have hk0 : k = 0 := by rw [hk, hS0]; simp
    rw [← h0, hk0]
    unfold f64
    rw [fpRound_zero]
    norm_num
  · have hgrid := int_on_grid_f64 hpos (lt_of_le_of_lt hxS hSq)
    refine ⟨?_, ?_⟩
    · unfold f64
      exact le_fpRound_of_grid hlow (hgrid k)
    · rcases lt_or_le ((S : ℚ) / (n : ℚ)) (1 / 2) with hlt | hge
      · have hle : ulpExp 53 (-1022) ((S : ℚ) / (n : ℚ)) ≤ -1 := by
          have := ulpExp_le 53 (-1022) (t := -2) hpos
            (by norm_num; linarith) (by norm_num)
          norm_num at this
          omega
        obtain ⟨M, hM⟩ := grid_of_le hle 1
        have : f64 ((S : ℚ) / (n : ℚ)) ≤ 1 / 2 := by
          unfold f64
          exact fpRound_le_of_grid (le_of_lt hlt) ⟨M, by rw [← hM]; norm_num⟩
        have hk0 : (0 : ℚ) ≤ ((k : ℤ) : ℚ) := by positivity
        linarith
      · -- the binade of the quotient
        have hb1 : (2 : ℚ) ^ Int.log 2 ((S : ℚ) / (n : ℚ)) ≤ (S : ℚ) / (n : ℚ) := by
          have := Int.zpow_log_le_self (R := ℚ) (b := 2) (by norm_num) hpos
          simpa using this
        have hb2 : (S : ℚ) / (n : ℚ) < (2 : ℚ) ^ (Int.log 2 ((S : ℚ) / (n : ℚ)) + 1) := by
          have := Int.lt_zpow_succ_log_self (R := ℚ) (b := 2) (by norm_num) ((S : ℚ) / (n : ℚ))
          simpa using this
        have hmin : (-1022 : ℤ) ≤ Int.log 2 ((S : ℚ) / (n : ℚ)) := by
          have : (-1 : ℤ) ≤ Int.log 2 ((S : ℚ) / (n : ℚ)) :=
            (Int.zpow_le_iff_le_log (by norm_num) hpos).mp (by norm_num; linarith)
          omega
        have hu : ulpExp 53 (-1022) ((S : ℚ) / (n : ℚ))
            = Int.log 2 ((S : ℚ) / (n : ℚ)) - 52 := by
          rw [ulpExp_of_binade 53 (-1022) hb1 hb2 hmin]
          norm_num
        obtain ⟨M, hM⟩ := hgrid ((k : ℤ) + 1)
        have hupos := two_zpow_pos (ulpExp 53 (-1022) ((S : ℚ) / (n : ℚ)))
        -- the last place is below `2 / n`
        have husmall : (n : ℚ) * (2 : ℚ) ^ ulpExp 53 (-1022) ((S : ℚ) / (n : ℚ)) < 2 := by
          rw [hu, zpow_sub₀ (by norm_num : (2 : ℚ) ≠ 0)]
          have h52 : (2 : ℚ) ^ (52 : ℤ) = 4503599627370496 := by norm_num
          rw [h52]
          have h1 : (n : ℚ) * (2 : ℚ) ^ Int.log 2 ((S : ℚ) / (n : ℚ)) ≤ (S : ℚ) := by
            have := mul_le_mul_of_nonneg_left hb1 (le_of_lt hnq)
            rwa [mul_div_cancel₀ _ (ne_of_gt hnq)] at this
          rw [← mul_div_assoc, div_lt_iff₀ (by norm_num)]
          linarith
        have hhalf : (2 : ℚ) ^ ulpExp 53 (-1022) ((S : ℚ) / (n : ℚ)) / 2 < 1 / (n : ℚ) := by
          rw [lt_div_iff₀ hnq]
          linarith
        have hr : roundHalfEven ((S : ℚ) / (n : ℚ) /
            (2 : ℚ) ^ ulpExp 53 (-1022) ((S : ℚ) / (n : ℚ))) < M := by
          apply roundHalfEven_lt_of_lt_sub_half
          rw [div_lt_iff₀ hupos, sub_mul, ← hM]
          push_cast
          linarith
        have hr2 : ((roundHalfEven ((S : ℚ) / (n : ℚ) /
            (2 : ℚ) ^ ulpExp 53 (-1022) ((S : ℚ) / (n : ℚ))) : ℤ) : ℚ) < (M : ℚ) :=
          Int.cast_lt.mpr hr
        unfold f64
        rw [fpRound_eq]
        have := mul_lt_mul_of_pos_right hr2 hupos
        rw [← hM] at this
        push_cast at this
        push_cast
        linarith

theorem sum_map_le_of_le (l : List Nat) (f : Nat → Nat) (b : Nat) (h : ∀ i, f i ≤ b) :
    (l.map f).sum ≤ l.length * b := by
  induction l with
  | nil => simp
  | cons a t ih =>
    simp only [List.map_cons, List.sum_cons, List.length_cons]
    have := h a
    nlinarith

theorem sum_map_int_le_of_le (l : List Nat) (f : Nat → ℤ) (b : ℤ) (h : ∀ i, f i ≤ b) :
    (l.map f).sum ≤ (l.length : ℤ) * b := by
  induction l with
  | nil => simp
  | cons a t ih =>
    simp only [List.map_cons, List.sum_cons, List.length_cons]
    have := h a
    push_cast
    nlinarith

/-- A column of an 8-bit patch sums to at most 255 per row. -/
theorem columnSum_le (patch : Mat) (h8 : ∀ r c, patch.px r c ≤ 255) (c : Nat) :
    columnSum patch c ≤ patch.rows * 255 := by
  unfold columnSum
  have := sum_map_le_of_le (List.range patch.rows) (fun r => patch.px r c) 255
    (fun r => h8 r c)
  simpa using this

/-- The entries of the histogram of an 8-bit patch sum to at most 255 per pixel. -/
theorem sum_reduceColumns_le (patch : Mat) (h8 : ∀ r c, patch.px r c ≤ 255) :
    (reduceColumns patch).sum ≤ (patch.cols : ℤ) * ((patch.rows : ℤ) * 255) := by
  unfold reduceColumns
  have := sum_map_int_le_of_le (List.range patch.cols)
    (fun c => wrapInt32 (Int.ofNat (columnSum patch c))) ((patch.rows : ℤ) * 255)
    (fun c => by
      have h1 : wrapInt32 (Int.ofNat (columnSum patch c)) ≤ Int.ofNat (columnSum patch c) :=
        wrapInt32_le (Int.ofNat_nonneg _)
      have h2 : (Int.ofNat (columnSum patch c)) ≤ (patch.rows : ℤ) * 255 := by
        have := columnSum_le patch h8 c
        simp only [Int.ofNat_eq_coe]
        exact_mod_cast this
      exact le_trans h1 h2)
  simpa using this

theorem sum_map_wrap_exact (m : Mat) (l : List Nat)
    (h : ∀ c ∈ l, columnSum m c ≤ 2147483647) :
    (l.map fun (c : Nat) => wrapInt32 (Int.ofNat (columnSum m c))).sum
      = Int.ofNat ((l.map fun (c : Nat) => columnSum m c).sum) := by
  induction l with
  | nil => rfl
  | cons a t ih =>
    have ha := h a (List.mem_cons_self _ _)
    have ht := ih (fun c hc => h c (List.mem_cons_of_mem _ hc))
    have hw : wrapInt32 (Int.ofNat (columnSum m a)) = Int.ofNat (columnSum m a) := by
      apply wrapInt32_of_range (Int.ofNat_nonneg _)
      have hc : ((columnSum m a : ℕ) : ℤ) ≤ 2147483647 := by omega
      exact hc
    rw [List.map_cons, List.sum_cons, ht, hw, List.map_cons, List.sum_cons]
    simp only [Int.ofNat_eq_coe, Nat.cast_add]

/-- When no column sum leaves the 32-bit range the histogram sums to the sum of
all pixels. -/
theorem sum_reduceColumns_exact (patch : Mat)
    (hcol : ∀ c, c < patch.cols → columnSum patch c ≤ 2147483647) :
    (reduceColumns patch).sum = Int.ofNat (pixelSum patch) := by
  unfold reduceColumns pixelSum
  exact sum_map_wrap_exact patch (List.range patch.cols)
    (fun c hc => hcol c (List.mem_range.mp hc))

/-! ## Properties of `avgIntensity` -/

/-- C2, as stated, fails: for a box of width `2.5` the patch has 2 columns; with
pixel sum `S = 6` the code computes `trunc(6 / 2.5) = 2`, the integer division of
`S` by the 2 columns is 3. -/
theorem avgIntensity_ne_spec_fractional_width :
    (0 : ℚ) < 5 / 2 ∧ (smallPatch.cols : ℤ) = ⌊(5 / 2 : ℚ)⌋ ∧
    pixelSum smallPatch = 6 ∧ reduceColumns smallPatch = [3, 3] ∧
    sumHist (reduceColumns smallPatch) = 6 ∧
    avgIntensity smallPatch (5 / 2) = 2 ∧ avgIntensity_spec smallPatch (5 / 2) = 3 ∧
    avgIntensity smallPatch (5 / 2) ≠ avgIntensity_spec smallPatch (5 / 2) := by
  have hfl : ⌊(5 / 2 : ℚ)⌋ = 2 := by norm_num [Int.floor_eq_iff]
  have hP : pixelSum smallPatch = 6 := by decide
  have hR : reduceColumns smallPatch = [3, 3] := by decide
  have hS : sumHist (reduceColumns smallPatch) = 6 := by
    rw [hR]
    unfold sumHist
    have := f64_intCast_exact (N := 6) (by norm_num) (by norm_num)
    simpa using this
  have hu : ulpExp 53 (-1022) ((6 : ℚ) / (5 / 2)) = -51 := by
    rw [ulpExp_of_binade 53 (-1022) (e := 1) (by norm_num) (by norm_num) (by norm_num)]
    norm_num
  have h1 : (2 : ℚ) ≤ f64 ((6 : ℚ) / (5 / 2)) := by
    unfold f64
    refine le_fpRound_of_grid (by norm_num) ⟨4503599627370496, ?_⟩
    rw [hu]; norm_num
  have h2 : f64 ((6 : ℚ) / (5 / 2)) ≤ 5 / 2 := by
    unfold f64
    refine fpRound_le_of_grid (by norm_num) ⟨5629499534213120, ?_⟩
    rw [hu]; norm_num
  have hfloor : ⌊f64 ((6 : ℚ) / (5 / 2))⌋ = 2 := by
    rw [Int.floor_eq_iff]
    push_cast
    constructor <;> linarith
  have havg : avgIntensity smallPatch (5 / 2) = 2 := by
    unfold avgIntensity
    simp only [hS]
    rw [truncToInt_of_range (by linarith) (by rw [hfloor]; norm_num), hfloor]
  have hspec : avgIntensity_spec smallPatch (5 / 2) = 3 := by
    unfold avgIntensity_spec
    rw [hP, hfl]
    rfl
  refine ⟨by norm_num, ?_, hP, hR, hS, havg, hspec, ?_⟩
  · rw [hfl]; rfl
  · rw [havg, hspec]; norm_num

/-- C2, amended: for a box whose width `w > 0` is a whole number and a patch on
which no 32-bit quantity overflows and the sum is exact (every column sum fits in
an `int`, the pixel sum `S` is below `2^53`, the quotient fits in an `int`),
`avgIntensity` equals the integer division `S / w`. -/
theorem avgIntensity_eq_spec_whole_width (patch : Mat) (w : ℚ) (hw : 0 < w)
    (hwhole : (⌊w⌋ : ℚ) = w)
    (hcol : ∀ c, c < patch.cols → columnSum patch c ≤ 2147483647)
    (hS : pixelSum patch < 9007199254740992)
    (hq : avgIntensity_spec patch w ≤ 2147483647) :
    avgIntensity patch w = avgIntensity_spec patch w ∧
    avgIntensity patch w = (pixelSum patch : ℤ) / ⌊w⌋ := by
  have hfpos : 0 < ⌊w⌋ := by
    have : (0 : ℚ) < (⌊w⌋ : ℚ) := by rw [hwhole]; exact hw
    exact_mod_cast this
  obtain ⟨n, hn⟩ : ∃ n : ℕ, ⌊w⌋ = (n : ℤ) := ⟨⌊w⌋.toNat, by omega⟩
  have hnpos : 0 < n := by omega
  have hwn : w = (n : ℚ) := by rw [← hwhole, hn]; norm_cast
  have hspec : avgIntensity_spec patch w = ((pixelSum patch / n : ℕ) : ℤ) := by
    unfold avgIntensity_spec
    rw [hn, Int.ofNat_eq_coe]
    norm_cast
  have hSq : (((pixelSum patch : ℕ) : ℤ) : ℚ) < 9007199254740992 := by exact_mod_cast hS
  have hsum : sumHist (reduceColumns patch) = (pixelSum patch : ℚ) := by
    unfold sumHist
    rw [sum_reduceColumns_exact patch hcol, Int.ofNat_eq_coe,
      f64_intCast_exact (Int.ofNat_nonneg _) hSq]
    norm_cast
  have hx0 : (0 : ℚ) ≤ (pixelSum patch : ℚ) / (n : ℚ) :=
    div_nonneg (by positivity) (by positivity)
  have hfloor := floor_f64_div (pixelSum patch) n hnpos hS
  have key : avgIntensity patch w = avgIntensity_spec patch w := by
    have hrange : ⌊f64 ((pixelSum patch : ℚ) / (n : ℚ))⌋ ≤ 2147483647 := by
      rw [hfloor, ← hspec]; exact hq
    rw [hspec]
    unfold avgIntensity
    simp only
    rw [hsum, hwn, truncToInt_of_range (f64_nonneg hx0) hrange, hfloor]
  refine ⟨key, ?_⟩
  rw [key]
  unfold avgIntensity_spec
  rw [Int.ofNat_eq_coe]

/-- C2, amended, at `smallPatch` (sum 6) and width 2. -/
theorem avgIntensity_eq_spec_whole_width_witness :
    ((0 : ℚ) < 2 ∧ ((⌊(2 : ℚ)⌋ : ℤ) : ℚ) = 2 ∧
      (∀ c, c < smallPatch.cols → columnSum smallPatch c ≤ 2147483647) ∧
      pixelSum smallPatch < 9007199254740992 ∧
      avgIntensity_spec smallPatch 2 ≤ 2147483647) ∧
    (avgIntensity smallPatch 2 = avgIntensity_spec smallPatch 2 ∧
      avgIntensity smallPatch 2 = (pixelSum smallPatch : ℤ) / ⌊(2 : ℚ)⌋) :=
  have hspec : avgIntensity_spec smallPatch 2 ≤ 2147483647 := by
    have hP : pixelSum smallPatch = 6 := by decide
    unfold avgIntensity_spec
    rw [hP]
    norm_num
  ⟨⟨by norm_num, by norm_num, by decide, by decide, hspec⟩,
    avgIntensity_eq_spec_whole_width smallPatch 2 (by norm_num) (by norm_num) (by decide)
      (by decide) hspec⟩

/-- C9: for a box of width `w > 0` and height `h` and an 8-bit gray patch of
`⌊w⌋` columns and `⌊h⌋` rows (the row count being an `int`), `avgIntensity` is at
most `255 * ⌊h⌋`; hence `classify_defect` returns 2 only if `h ≥ 71`. -/
theorem avgIntensity_le_rows (rectangle : RotatedRect) (patch : Mat) (ratio0 : ℚ)
    (hw : 0 < rectangle.width) (hcols : (patch.cols : ℤ) = ⌊rectangle.width⌋)
    (hrows : (patch.rows : ℤ) = ⌊rectangle.height⌋) (h8 : ∀ r c, patch.px r c ≤ 255)
    (hint : patch.rows ≤ 2147483647) :
    avgIntensity patch rectangle.width ≤ 255 * ⌊rectangle.height⌋ ∧
    (classify_defect rectangle patch ratio0 = 2 → 71 ≤ rectangle.height) := by
  have hbound : avgIntensity patch rectangle.width ≤ 255 * ⌊rectangle.height⌋ := by
    rw [← hrows]
    rcases lt_or_le (2147483647 : ℤ) (255 * (patch.rows : ℤ)) with hbig | hsmall
    · have := truncToInt_le_max (f64 (sumHist (reduceColumns patch) / rectangle.width))
      unfold avgIntensity
      simp only
      omega
    · have hB0 : (0 : ℤ) ≤ 255 * (patch.rows : ℤ) := by positivity
      have hBq : (((255 * (patch.rows : ℤ)) : ℤ) : ℚ) ≤ 2147483647 := by exact_mod_cast hsmall
      have hBq0 : (0 : ℚ) ≤ (((255 * (patch.rows : ℤ)) : ℤ) : ℚ) := by exact_mod_cast hB0
      have hcw : (patch.cols : ℚ) ≤ rectangle.width := by
        have h1 : ((patch.cols : ℤ) : ℚ) ≤ rectangle.width := by
          rw [hcols]; exact Int.floor_le _
        exact_mod_cast h1
      have hc0 : (0 : ℚ) ≤ (patch.cols : ℚ) := by positivity
      -- the sum of the histogram, as a double, is at most `w * (B + 1/2)`
      have hsum : sumHist (reduceColumns patch)
          ≤ rectangle.width * ((((255 * (patch.rows : ℤ)) : ℤ) : ℚ) + 1 / 2) := by
        have hR := sum_reduceColumns_le patch h8
        have hRq : (((reduceColumns patch).sum : ℤ) : ℚ)
            ≤ (patch.cols : ℚ) * (((255 * (patch.rows : ℤ)) : ℤ) : ℚ) := by
          have : (((reduceColumns patch).sum : ℤ) : ℚ)
              ≤ (((patch.cols : ℤ) * ((patch.rows : ℤ) * 255) : ℤ) : ℚ) := Int.cast_le.mpr hR
          push_cast at this
          push_cast
          linarith
        have hwB : (0 : ℚ) ≤ rectangle.width * ((((255 * (patch.rows : ℤ)) : ℤ) : ℚ) + 1 / 2) :=
          mul_nonneg (le_of_lt hw) (by linarith)
        unfold sumHist
        rcases lt_or_le (((reduceColumns patch).sum : ℤ) : ℚ) 1 with hlt1 | hge1
        · have hle0 : (((reduceColumns patch).sum : ℤ) : ℚ) ≤ 0 := by
            have h2 : (reduceColumns patch).sum < 1 := by exact_mod_cast hlt1
            have h3 : (reduceColumns patch).sum ≤ 0 := by omega
            exact_mod_cast h3
          exact le_trans (f64_nonpos hle0) hwB
        · have h1 := f64_le_mul hge1
          have h2 : (((reduceColumns patch).sum : ℤ) : ℚ) * (1 + 1 / 9007199254740992)
              ≤ (patch.cols : ℚ) * (((255 * (patch.rows : ℤ)) : ℤ) : ℚ)
                * (1 + 1 / 9007199254740992) :=
            mul_le_mul_of_nonneg_right hRq (by norm_num)
          have h3 : (patch.cols : ℚ) * (((255 * (patch.rows : ℤ)) : ℤ) : ℚ)
                * (1 + 1 / 9007199254740992)
              ≤ (patch.cols : ℚ) * ((((255 * (patch.rows : ℤ)) : ℤ) : ℚ) + 1 / 2) := by
            rw [mul_assoc]
            apply mul_le_mul_of_nonneg_left _ hc0
            linarith
          have h4 : (patch.cols : ℚ) * ((((255 * (patch.rows : ℤ)) : ℤ) : ℚ) + 1 / 2)
              ≤ rectangle.width * ((((255 * (patch.rows : ℤ)) : ℤ) : ℚ) + 1 / 2) :=
            mul_le_mul_of_nonneg_right hcw (by linarith)
          linarith
      have hx : sumHist (reduceColumns patch) / rectangle.width
          ≤ (((255 * (patch.rows : ℤ)) : ℤ) : ℚ) + 1 / 2 := by
        rw [div_le_iff₀ hw]
        linarith
      -- so is the rounded quotient
      have hfx : f64 (sumHist (reduceColumns patch) / rectangle.width)
          ≤ (((255 * (patch.rows : ℤ)) : ℤ) : ℚ) + 1 / 2 := by
        rcases le_or_lt (sumHist (reduceColumns patch) / rectangle.width) 0 with hneg | hpos
        · have := f64_nonpos hneg
          linarith
        · have hle : ulpExp 53 (-1022) (sumHist (reduceColumns patch) / rectangle.width)
              ≤ -1 := by
            have := ulpExp_le 53 (-1022) (t := 30) hpos (by norm_num; linarith) (by norm_num)
            norm_num at this
            omega
          obtain ⟨M, hM⟩ := grid_of_le hle (2 * (255 * (patch.rows : ℤ)) + 1)
          unfold f64
          refine fpRound_le_of_grid hx ⟨M, ?_⟩
          rw [← hM]
          push_cast
          norm_num
          ring
      have := truncToInt_le_of_le_add_half hB0 hfx
      unfold avgIntensity
      exact this
  refine ⟨hbound, fun h2 => ?_⟩
  have havg : avgIntensity patch rectangle.width > 18000 := by
    by_contra hcon
    unfold classify_defect classify_label at h2
    rw [if_neg hcon] at h2
    simp only at h2
    split_ifs at h2 <;> omega
  have hfl : 71 ≤ ⌊rectangle.height⌋ := by omega
  have : ((71 : ℤ) : ℚ) ≤ rectangle.height := Int.le_floor.mp hfl
  exact_mod_cast this

/-- C9 at a box of 2 by 71 over `brightPatch`. -/
theorem avgIntensity_le_rows_witness :
    ((0 : ℚ) < 2 ∧ (brightPatch.cols : ℤ) = ⌊(2 : ℚ)⌋ ∧ (brightPatch.rows : ℤ) = ⌊(71 : ℚ)⌋ ∧
      (∀ r c, brightPatch.px r c ≤ 255) ∧ brightPatch.rows ≤ 2147483647) ∧
    (avgIntensity brightPatch 2 ≤ 255 * ⌊(71 : ℚ)⌋ ∧
      (classify_defect { centerX := 0, centerY := 0, width := 2, height := 71, angle := 0 }
          brightPatch 0 = 2 → (71 : ℚ) ≤ 71)) :=
  ⟨⟨by norm_num, by simp [brightPatch], by simp [brightPatch], fun _ _ => by simp [brightPatch],
      by decide⟩,
    avgIntensity_le_rows { centerX := 0, centerY := 0, width := 2, height := 71, angle := 0 }
      brightPatch 0 (by norm_num) (by simp [brightPatch]) (by simp [brightPatch])
      (fun _ _ => by simp [brightPatch]) (by decide)⟩

/-! ## Facts about the second pass of `find_defect` -/

/-- C7 fails on the code: a contour of 4 points in the second pass is not
skipped. `fitEllipse` is called on it and raises its error, no region is
emitted, and the contour of 8 points after it is never processed. -/
theorem find_defect_short_contour_raises :
    blockContour.length < 5 ∧ 5 ≤ ringContour.length ∧
    (find_defect false [blockContour, ringContour] [blockContour, ringContour]
        constFit constWarp 0).stop = Pass2Stop.fitEllipseError 0 ∧
    (find_defect false [blockContour, ringContour] [blockContour, ringContour]
        constFit constWarp 0).regions.length = 0 := by
  refine ⟨by decide, by decide, rfl, rfl⟩

/-- C10 fails on the code: `on_defect_save_button_clicked` hands `measure_output`
to `cv::imwrite`. With both outputs cached the raster written is the
measurement output (4 rows), not the defect output (6 rows); after `find_defect`
alone it is the empty raster. -/
theorem defect_save_writes_measure_output :
    (on_defect_save_button_clicked id bothCached).2.rows = bothCached.measure_output.rows ∧
    (on_defect_save_button_clicked id bothCached).2.rows = 4 ∧
    bothCached.defect_outut.rows = 6 ∧
    defectOnly.defect_outut.empty = false ∧
    (on_defect_save_button_clicked id defectOnly).2.empty = true ∧
    (∀ (run_defect : MainWindow → MainWindow) (window : MainWindow),
      (on_defect_save_button_clicked run_defect window).2
        = (on_defect_save_button_clicked run_defect window).1.measure_output) := by
  refine ⟨rfl, rfl, rfl, rfl, rfl, fun _ _ => rfl⟩

end Taymer
